import Mathlib

/-!
Shallow embedding of the habit-tracker domain engine
(`src/core/models.py`, `src/core/habit/service.py`, `src/core/xp/service.py`,
`src/core/analytics/functions.py`) together with proofs about the frozen
claims on the natural-language specification.

Conventions of the embedding:

* Python `int` is modelled by `ℤ` (or `ℕ` where the source value is
  manifestly non-negative, e.g. auto-increment primary keys).
* A Python `datetime` is modelled by its calendar-date projection `PyDate`:
  every use of timestamps in the embedded code paths goes through
  `datetime.date()` or `datetime.isocalendar()`, both of which depend only
  on the date part.
* Raising an exception is modelled by returning `Except`; a raised
  exception aborts the operation before any store mutation, so the error
  branch carries no store.
* CPython `datetime.date` calendar arithmetic (`toordinal`,
  `fromisocalendar`, `isocalendar`) is re-implemented from its documented
  proleptic-Gregorian semantics.  Python floor division/modulo are written
  with `Int.fdiv` / `Int.fmod` / `Int.emod` explicitly.
-/

namespace HabitTracker

/-- Habit periodicity types (`Periodicity` in `src/core/models.py`). -/
inductive Periodicity where
  | DAILY
  | WEEKLY
deriving DecidableEq, Repr

/-- Gregorian leap-year test (CPython `datetime._is_leap`). -/
def isLeapYear (y : ℕ) : Bool :=
  y % 4 == 0 && (y % 100 != 0 || y % 400 == 0)

/-- Days in a month of a year (CPython `datetime._days_in_month`). -/
def daysInMonth (y m : ℕ) : ℕ :=
  if m = 2 then (if isLeapYear y then 29 else 28)
  else if m = 4 ∨ m = 6 ∨ m = 9 ∨ m = 11 then 30
  else 31

/-- Days before January 1st of year `y` (CPython `datetime._days_before_year`):
`365*n + n/4 - n/100 + n/400` with `n = y - 1`, integer floor division. -/
def daysBeforeYear (y : ℕ) : ℕ :=
  let n := y - 1
  365 * n + n / 4 - n / 100 + n / 400

/-- Days in year `y` strictly before month `m`
(CPython `datetime._days_before_month`). -/
def daysBeforeMonth (y m : ℕ) : ℕ :=
  (List.range (m - 1)).foldl (fun acc i => acc + daysInMonth y (i + 1)) 0

/-- Proleptic Gregorian ordinal of a calendar date
(CPython `datetime._ymd2ord`, i.e. `date.toordinal`); day 1 is 0001-01-01. -/
def toOrdinal (y m d : ℕ) : ℤ :=
  ((daysBeforeYear y + daysBeforeMonth y m + d : ℕ) : ℤ)

/-- Ordinal of the Monday starting ISO week 1 of year `y`
(CPython `datetime._isoweek1monday`). -/
def isoweek1monday (y : ℕ) : ℤ :=
  let firstday := toOrdinal y 1 1
  let firstweekday := Int.emod (firstday + 6) 7
  let week1monday := firstday - firstweekday
  if 3 < firstweekday then week1monday + 7 else week1monday

/-- A calendar date: the projection of a Python `datetime` that the embedded
code paths depend on (`datetime.date()` / `datetime.isocalendar()` ignore the
time-of-day fields). -/
structure PyDate where
  year : ℕ
  month : ℕ
  day : ℕ
deriving DecidableEq, Repr

/-- ISO calendar triple `(iso_year, iso_week, iso_weekday)` of a date
(CPython `date.isocalendar`). -/
def isocalendarTuple (y m d : ℕ) : ℤ × ℤ × ℤ :=
  let today := toOrdinal y m d
  let week1monday := isoweek1monday y
  let week := Int.fdiv (today - week1monday) 7
  let day := Int.fmod (today - week1monday) 7
  if week < 0 then
    let w1m := isoweek1monday (y - 1)
    (((y : ℤ) - 1), Int.fdiv (today - w1m) 7 + 1, Int.fmod (today - w1m) 7 + 1)
  else if 52 ≤ week ∧ isoweek1monday (y + 1) ≤ today then
    ((y : ℤ) + 1, 1, day + 1)
  else
    ((y : ℤ), week + 1, day + 1)

/-- Zero-padded two-digit rendering of a non-negative integer
(Python format spec `02d`, for values in the ranges produced here). -/
def pad2 (n : ℤ) : String :=
  if n < 10 then "0" ++ toString n else toString n

/-- Zero-padded four-digit rendering (Python `%04d`, as used by
`date.isoformat` for the year). -/
def pad4 (n : ℕ) : String :=
  (if n < 10 then "000" else if n < 100 then "00" else if n < 1000 then "0" else "")
    ++ toString n

/-- Period key of a timestamp (`_compute_period_key` in
`src/core/habit/service.py`): `date.isoformat()` for DAILY and the
ISO `YYYY-Www` identifier (week zero-padded, year unpadded) for WEEKLY. -/
def compute_period_key (when : PyDate) (periodicity : Periodicity) : String :=
  match periodicity with
  | .DAILY =>
      pad4 when.year ++ "-" ++ pad2 when.month ++ "-" ++ pad2 when.day
  | .WEEKLY =>
      let t := isocalendarTuple when.year when.month when.day
      toString t.1 ++ "-W" ++ pad2 t.2.1

/-- Value of a decimal digit character, `none` on non-digits. -/
def digitVal? (c : Char) : Option ℕ :=
  if c.isDigit then some (c.toNat - 48) else none

/-- Value of a non-empty all-digit character list, `none` otherwise. -/
def digitsVal? (cs : List Char) : Option ℕ :=
  match cs with
  | [] => none
  | _ => cs.foldlM (fun acc c => (digitVal? c).map (fun d => acc * 10 + d)) 0

/-- Model of Python `int(str)`: an optional sign followed by digits.
(The model does not admit surrounding whitespace or digit-group
underscores, which Python also tolerates; the engine only generates and
the claims only mention canonical digit strings.) -/
def pyIntOfChars (cs : List Char) : Option ℤ :=
  match cs with
  | '+' :: rest => (digitsVal? rest).map Int.ofNat
  | '-' :: rest => (digitsVal? rest).map (fun n => -(n : ℤ))
  | _ => (digitsVal? cs).map Int.ofNat

/-- Model of Python `period_key.split('-W')`: split on every left-to-right,
non-overlapping occurrence of the two-character separator. -/
def pySplitDashW : List Char → List Char → List (List Char)
  | [], acc => [acc.reverse]
  | '-' :: 'W' :: rest, acc => acc.reverse :: pySplitDashW rest []
  | c :: rest, acc => pySplitDashW rest (c :: acc)

/-- Model of `date.fromisoformat` on the canonical `YYYY-MM-DD` layout the
codec emits: fixed-width digits, then the `date` constructor's range
validation (year 1..9999, month 1..12, day 1..days-in-month).  Any other
shape fails, modelling the raised `ValueError`. -/
def fromisoformatDate? (s : String) : Option PyDate :=
  match s.data with
  | [y1, y2, y3, y4, '-', m1, m2, '-', d1, d2] => do
      let y ← digitsVal? [y1, y2, y3, y4]
      let m ← digitsVal? [m1, m2]
      let d ← digitsVal? [d1, d2]
      if 1 ≤ y ∧ y ≤ 9999 ∧ 1 ≤ m ∧ m ≤ 12 ∧ 1 ≤ d ∧ d ≤ daysInMonth y m then
        some ⟨y, m, d⟩
      else none
  | _ => none

/-- Ordinal of the Monday of an ISO week (CPython
`date.fromisocalendar(year, week, 1).toordinal()`), `none` modelling the
`ValueError` on out-of-range year or week. -/
def fromisocalendarMondayOrd? (year week : ℤ) : Option ℤ :=
  if year < 1 ∨ 9999 < year then none
  else
    let yn := year.toNat
    let weekValid : Prop :=
      (0 < week ∧ week < 53) ∨
        (week = 53 ∧
          (Int.emod (toOrdinal yn 1 1) 7 = 4 ∨
            (Int.emod (toOrdinal yn 1 1) 7 = 3 ∧ isLeapYear yn)))
    if weekValid then some (isoweek1monday yn + (week - 1) * 7) else none

/-- Step size between consecutive period ordinals
(`_get_consecutive_step` in `src/core/analytics/functions.py`). -/
def get_consecutive_step (periodicity : Periodicity) : ℤ :=
  match periodicity with
  | .DAILY => 1
  | .WEEKLY => 7

/-- Decode a period key to its timeline ordinal
(`_parse_period_key_to_ordinal` in `src/core/analytics/functions.py`);
`none` models the `ValueError` paths the caller catches and skips. -/
def parse_period_key_to_ordinal (period_key : String) (periodicity : Periodicity) :
    Option ℤ :=
  match periodicity with
  | .DAILY =>
      (fromisoformatDate? period_key).map (fun d => toOrdinal d.year d.month d.day)
  | .WEEKLY =>
      match pySplitDashW period_key.data [] with
      | [ys, ws] =>
          match pyIntOfChars ys, pyIntOfChars ws with
          | some y, some w => fromisocalendarMondayOrd? y w
          | _, _ => none
      | _ => none

/-- Data transfer object for Habit (`HabitDTO` in `src/core/analytics/dto.py`). -/
structure HabitDTO where
  id : ℤ
  name : String
  periodicity : Periodicity
  created_at : ℤ
  is_active : Bool
deriving DecidableEq, Repr

/-- Data transfer object for Completion (`CompletionDTO` in
`src/core/analytics/dto.py`). -/
structure CompletionDTO where
  habit_id : ℤ
  completed_at : ℤ
  period_key : String
deriving DecidableEq, Repr

/-- Data transfer object for the longest-streak result (`LongestStreakDTO`). -/
structure LongestStreakDTO where
  length : ℕ
  habit_id : Option ℤ
  habit_name : Option String
  periodicity : Option Periodicity
deriving DecidableEq, Repr

/-- The scan loop of `longest_streak_for_habit`: walk the sorted ordinals
keeping the previous ordinal, the current run length and the maximum seen;
a gap different from `step` resets the current run to 1. -/
def streakScan (step : ℤ) : List ℤ → ℤ → ℕ → ℕ → ℕ
  | [], _, _, max_streak => max_streak
  | x :: xs, prev, current_streak, max_streak =>
      if x = prev + step then
        streakScan step xs x (current_streak + 1) (max (max_streak) (current_streak + 1))
      else
        streakScan step xs x 1 max_streak

/-- The set of ordinals of the successfully decoded period keys of the
completions belonging to `habit` (dedup via Python `set`). -/
def period_ordinals (habit : HabitDTO) (completions : List CompletionDTO) : Finset ℤ :=
  ((completions.filter (fun c => c.habit_id == habit.id)).filterMap
    (fun c => parse_period_key_to_ordinal c.period_key habit.periodicity)).toFinset

/-- Longest streak for a habit (`longest_streak_for_habit` in
`src/core/analytics/functions.py`): filter the completions by habit id,
decode period keys skipping invalid ones, deduplicate, sort ascending and
scan for the longest run of gaps equal to the periodicity step. -/
def longest_streak_for_habit (habit : HabitDTO) (completions : List CompletionDTO) : ℕ :=
  let habit_completions := completions.filter (fun c => c.habit_id == habit.id)
  if habit_completions.isEmpty then 0
  else
    let decoded := habit_completions.filterMap
      (fun c => parse_period_key_to_ordinal c.period_key habit.periodicity)
    if decoded.isEmpty then 0
    else
      let sorted_ordinals := (decoded.dedup).insertionSort (· ≤ ·)
      let step := get_consecutive_step habit.periodicity
      match sorted_ordinals with
      | [] => 0
      | x :: xs => streakScan step xs x 1 1

/-- The accumulator loop of `longest_streak_across_habits`: `best_streak`
starts at 0 and `best_habit` at `None`; a strictly larger streak replaces
both, an equal streak replaces the habit only when its id is lower and a
best habit already exists. -/
def bestAcrossLoop (completions : List CompletionDTO) :
    List HabitDTO → ℕ → Option HabitDTO → ℕ × Option HabitDTO
  | [], best_streak, best_habit => (best_streak, best_habit)
  | habit :: rest, best_streak, best_habit =>
      let streak := longest_streak_for_habit habit completions
      if best_streak < streak then
        bestAcrossLoop completions rest streak (some habit)
      else
        match best_habit with
        | some best =>
            if streak = best_streak ∧ habit.id < best.id then
              bestAcrossLoop completions rest best_streak (some habit)
            else
              bestAcrossLoop completions rest best_streak (some best)
        | none => bestAcrossLoop completions rest best_streak none

/-- Longest streak across habits (`longest_streak_across_habits` in
`src/core/analytics/functions.py`). -/
def longest_streak_across_habits
    (habits : List HabitDTO) (completions : List CompletionDTO) : LongestStreakDTO :=
  if habits.isEmpty then ⟨0, none, none, none⟩
  else
    match bestAcrossLoop completions habits 0 none with
    | (best_streak, best_habit) =>
        match best_habit with
        | none => ⟨0, none, none, none⟩
        | some best =>
            if best_streak = 0 then ⟨0, none, none, none⟩
            else ⟨best_streak, some best.id, some best.name, some best.periodicity⟩

/-- A run of `n` consecutive ordinals (gap exactly `step`) inside `S`:
for positive `n` some start `a ∈ S` has `a, a + step, …, a + (n-1)·step`
all in `S`.  This is the specification-side notion of a streak. -/
def hasRunOfLen (S : Finset ℤ) (step : ℤ) (n : ℕ) : Prop :=
  n = 0 ∨ ∃ a ∈ S, ∀ i < n, a + step * (i : ℤ) ∈ S

instance (S : Finset ℤ) (step : ℤ) (n : ℕ) : Decidable (hasRunOfLen S step n) := by
  unfold hasRunOfLen
  infer_instance

/-- Specification-side longest run: the greatest `n` (necessarily at most
`S.card`) such that `S` contains a run of `n` consecutive ordinals. -/
def longestRunSpec (S : Finset ℤ) (step : ℤ) : ℕ :=
  Nat.findGreatest (hasRunOfLen S step) S.card

/-- The domain error taxonomy of `src/core/habit/errors.py`: the concrete
subclasses of the `HabitError` base exception, with their carried data. -/
inductive DomainError where
  | activeProfileRequired
  | habitNotFound (habit_id : Option ℕ) (name : Option String)
  | habitAlreadyExists (name : String)
  | habitArchived (habit_id : ℕ)
  | habitAlreadyCompletedForPeriod (habit_id : ℕ) (period_key : String)
deriving DecidableEq, Repr

/-- An exception escaping a service operation: either a member of the
domain taxonomy or a plain Python `ValueError` (which `errors.py` does not
define and which is not a `HabitError`). -/
inductive PyError where
  | domain (e : DomainError)
  | valueError (msg : String)
deriving DecidableEq, Repr

/-- A profile row (`Profile` in `src/core/models.py`). -/
structure Profile where
  id : ℕ
  username : String
deriving DecidableEq, Repr

/-- The singleton active-profile pointer row (`AppState`, primary key 1). -/
structure AppState where
  active_profile_id : Option ℕ
deriving DecidableEq, Repr

/-- A habit row (`Habit` in `src/core/models.py`). -/
structure Habit where
  id : ℕ
  profile_id : ℕ
  name : String
  periodicity : Periodicity
  created_at : ℤ
  is_active : Bool
deriving DecidableEq, Repr

/-- A completion row (`Completion` in `src/core/models.py`). -/
structure Completion where
  id : ℕ
  habit_id : ℕ
  completed_at : PyDate
  period_key : String
deriving DecidableEq, Repr

/-- Modelled from the spec: the `XPEvent` record (§3 of the spec); its
class definition is absent from the provided sources, but its shape is
pinned down by the constructor call in `XPService.award_habit_completion`
(`src/core/xp/service.py`): id, profile_id, amount, reason, optional
habit_id and optional completion_id. -/
structure XPEvent where
  id : ℕ
  profile_id : ℕ
  amount : ℤ
  reason : String
  habit_id : Option ℕ
  completion_id : Option ℕ
deriving DecidableEq, Repr

/-- The transactional record store behind the services: the tables of the
five entities plus the auto-increment counters for primary keys. -/
structure Store where
  profiles : List Profile
  appStateRow : Option AppState
  habits : List Habit
  completions : List Completion
  xpEvents : List XPEvent
  nextHabitId : ℕ
  nextCompletionId : ℕ
  nextXPEventId : ℕ
deriving DecidableEq, Repr

/-- Resolve the active profile (`HabitService._get_active_profile`):
requires the `AppState` row to exist, its pointer to be set and truthy
(Python treats id 0 as falsy), and the pointed-to profile to exist. -/
def getActiveProfile (st : Store) : Except PyError Profile :=
  match st.appStateRow with
  | none => .error (.domain .activeProfileRequired)
  | some state =>
      match state.active_profile_id with
      | none => .error (.domain .activeProfileRequired)
      | some pid =>
          if pid = 0 then .error (.domain .activeProfileRequired)
          else
            match st.profiles.find? (fun p => p.id == pid) with
            | none => .error (.domain .activeProfileRequired)
            | some profile => .ok profile

/-- Model of Python `str.strip()` with no argument: remove leading and
trailing whitespace (the model uses `Char.isWhitespace`, which covers the
ASCII whitespace Python strips; exotic unicode spaces are not exercised
by the engine or the claims). -/
def pyStrip (s : String) : String :=
  ⟨((s.data.dropWhile Char.isWhitespace).reverse.dropWhile Char.isWhitespace).reverse⟩

/-- Create a habit (`HabitService.create_habit`): requires an active
profile, trims the name, raises a plain `ValueError` when the trimmed name
is blank, raises `HabitAlreadyExists` when an active habit of the profile
already has the trimmed name, otherwise inserts the habit as active. -/
def create_habit (st : Store) (name : String) (periodicity : Periodicity)
    (created_at : ℤ := 0) : Except PyError (Habit × Store) := do
  let profile ← getActiveProfile st
  let normalized_name := pyStrip name
  if normalized_name = "" then
    .error (.valueError "Habit name cannot be empty")
  else
    match st.habits.find? (fun h =>
        h.profile_id == profile.id && h.name == normalized_name && h.is_active) with
    | some _ => .error (.domain (.habitAlreadyExists normalized_name))
    | none =>
        let habit : Habit :=
          ⟨st.nextHabitId, profile.id, normalized_name, periodicity, created_at, true⟩
        .ok (habit,
          { st with habits := st.habits ++ [habit], nextHabitId := st.nextHabitId + 1 })

/-- Archive a habit (`HabitService.archive_habit`): requires an active
profile and an owned habit, then updates the row to `is_active = False`. -/
def archive_habit (st : Store) (habit_id : ℕ) : Except PyError (Habit × Store) := do
  let profile ← getActiveProfile st
  match st.habits.find? (fun h => h.id == habit_id) with
  | none => .error (.domain (.habitNotFound (some habit_id) none))
  | some habit =>
      if habit.profile_id ≠ profile.id then
        .error (.domain (.habitNotFound (some habit_id) none))
      else
        let archived := { habit with is_active := false }
        .ok (archived,
          { st with habits := st.habits.map (fun h =>
              if h.id == habit_id then { h with is_active := false } else h) })

/-- Award XP for a completion (`XPService.award_habit_completion`):
idempotent on `completion_id` — return the first existing event referencing
it, otherwise insert a new event with amount 1 and reason
HABIT_COMPLETION.  This operation raises nothing. -/
def award_habit_completion (st : Store) (profile_id habit_id completion_id : ℕ) :
    XPEvent × Store :=
  match st.xpEvents.find? (fun e => e.completion_id == some completion_id) with
  | some existing => (existing, st)
  | none =>
      let xp_event : XPEvent :=
        ⟨st.nextXPEventId, profile_id, 1, "HABIT_COMPLETION",
          some habit_id, some completion_id⟩
      (xp_event,
        { st with xpEvents := st.xpEvents ++ [xp_event],
                  nextXPEventId := st.nextXPEventId + 1 })

/-- Complete a habit (`HabitService.complete_habit`): requires an active
profile and an owned habit, rejects archived habits, computes the period
key of `when`, rejects a duplicate `(habit_id, period_key)`, otherwise
inserts the completion and, when an XP service is configured
(`xpEnabled`), awards XP in the same unit of work.  The defaulting of
`when` to the current clock time is outside the model: callers pass the
timestamp explicitly, as every claim does. -/
def complete_habit (xpEnabled : Bool) (st : Store) (habit_id : ℕ) (when : PyDate) :
    Except PyError (Completion × Store) := do
  let profile ← getActiveProfile st
  match st.habits.find? (fun h => h.id == habit_id) with
  | none => .error (.domain (.habitNotFound (some habit_id) none))
  | some habit =>
      if habit.profile_id ≠ profile.id then
        .error (.domain (.habitNotFound (some habit_id) none))
      else if habit.is_active = false then
        .error (.domain (.habitArchived habit_id))
      else
        let period_key := compute_period_key when habit.periodicity
        match st.completions.find? (fun c =>
            c.habit_id == habit_id && c.period_key == period_key) with
        | some _ =>
            .error (.domain (.habitAlreadyCompletedForPeriod habit_id period_key))
        | none =>
            let completion : Completion :=
              ⟨st.nextCompletionId, habit_id, when, period_key⟩
            let st1 :=
              { st with completions := st.completions ++ [completion],
                        nextCompletionId := st.nextCompletionId + 1 }
            let st2 :=
              if xpEnabled then
                (award_habit_completion st1 profile.id habit_id completion.id).2
              else st1
            .ok (completion, st2)

/-- The store-mutating engine operations, as a single step type (used to
state engine-wide invariants). -/
inductive EngineOp where
  | createHabit (name : String) (periodicity : Periodicity) (created_at : ℤ)
  | archiveHabit (habit_id : ℕ)
  | completeHabit (xpEnabled : Bool) (habit_id : ℕ) (when : PyDate)
  | awardXP (profile_id habit_id completion_id : ℕ)
deriving DecidableEq, Repr

/-- Run one engine operation against the store: an operation that raises
leaves the store unchanged (the exception aborts the unit of work before
any commit). -/
def runOp (op : EngineOp) (st : Store) : Store :=
  match op with
  | .createHabit name p c =>
      match create_habit st name p c with
      | .ok (_, st') => st'
      | .error _ => st
  | .archiveHabit hid =>
      match archive_habit st hid with
      | .ok (_, st') => st'
      | .error _ => st
  | .completeHabit xp hid when =>
      match complete_habit xp st hid when with
      | .ok (_, st') => st'
      | .error _ => st
  | .awardXP pid hid cid => (award_habit_completion st pid hid cid).2

/-- Fuelled floor-log2: `log2fuel fuel n` is `⌊log2 n⌋` whenever
`n ≤ fuel` (structural recursion, so it reduces inside the kernel). -/
def log2fuel : ℕ → ℕ → ℕ
  | 0, _ => 0
  | fuel + 1, n => if 2 ≤ n then log2fuel fuel (n / 2) + 1 else 0

/-- Floor of the base-2 logarithm of a positive natural number. -/
def floorLog2 (n : ℕ) : ℕ :=
  log2fuel n n

/-- Fuelled ceil-log2: `clog2fuel fuel n` is `⌈log2 n⌉` whenever
`n ≤ fuel`. -/
def clog2fuel : ℕ → ℕ → ℕ
  | 0, _ => 0
  | fuel + 1, n => if n ≤ 1 then 0 else clog2fuel fuel ((n + 1) / 2) + 1

/-- Ceiling of the base-2 logarithm of a positive natural number. -/
def ceilLog2 (n : ℕ) : ℕ :=
  clog2fuel n n

/-- The quotient `a / b` rounded to the nearest integer, ties to even
(IEEE-754 default rounding at integer granularity), for `1 ≤ b`. -/
def rneDiv (a b : ℕ) : ℕ :=
  let f := a / b
  let r2 := 2 * (a % b)
  if r2 < b then f
  else if b < r2 then f + 1
  else if f % 2 = 0 then f else f + 1

/-- Model of `math.floor` applied to the CPython float `a / b` (for
naturals `a`, `b ≥ 1`): `int / int` true division is the exact rational
`a / b` correctly rounded (nearest, ties to even) to an IEEE-754 binary64
value, whose significand grid at binary exponent `e` (where
`2 ^ e ≤ a / b < 2 ^ (e + 1)`) has spacing `2 ^ (e - 52)`; CPython's
`long_true_divide` performs exactly this shift-and-round in integer
arithmetic.  Overflow to infinity (quotients at or above `2 ^ 1024`) and
subnormals are outside the range exercised by the engine and the claims. -/
def floatFloorDiv (a b : ℕ) : ℕ :=
  if a = 0 then 0
  else if b ≤ a then
    let e := floorLog2 (a / b)
    if e ≤ 52 then
      let S := 2 ^ (52 - e)
      rneDiv (a * S) b / S
    else
      let U := 2 ^ (e - 52)
      rneDiv a (b * U) * U
  else
    let c := ceilLog2 ((b + a - 1) / a)
    let S := 2 ^ (52 + c)
    rneDiv (a * S) b / S

/-- Compute the level from total XP (`XPService.compute_level`):
`1 + floor(total_xp / 10)`, where `/` is Python float division and
`floor` is `math.floor` on the resulting float. -/
def compute_level (total_xp : ℕ) : ℤ :=
  1 + (floatFloorDiv total_xp 10 : ℤ)

/-- Compute level progress (`XPService.compute_level_progress`):
`(level, total_xp mod 10, 10 - total_xp mod 10)`. -/
def compute_level_progress (total_xp : ℕ) : ℤ × ℕ × ℕ :=
  (compute_level total_xp, total_xp % 10, 10 - total_xp % 10)

/-! ## Concrete fixtures used by witness theorems -/

/-- A store with one active profile and one archived habit. -/
def stArchived : Store :=
  ⟨[⟨1, "ann"⟩], some ⟨some 1⟩, [⟨1, 1, "run", .DAILY, 0, false⟩], [], [], 2, 1, 1⟩

/-- A store with one active profile and no habits. -/
def stEmptyHabits : Store :=
  ⟨[⟨1, "ann"⟩], some ⟨some 1⟩, [], [], [], 1, 1, 1⟩

/-- Is a service result a member of the domain error taxonomy
(a `HabitError` subclass), as opposed to a plain `ValueError`? -/
def isDomainErrorResult {α : Type} : Except PyError α → Bool
  | .error (.domain _) => true
  | _ => false

/-! ## C4: weekly keys are adjacent across the ISO year boundary -/

/-- C4: the decoded ordinals of 2025-W52 and 2026-W01 (Mondays
2025-12-22 and 2025-12-29) differ by exactly 7, the weekly streak over
those two keys is 2, and the weekly encoder uses the ISO week-numbering
year: the late-December timestamp 2025-12-29 encodes to 2026-W01. -/
theorem C4_iso_year_boundary :
    parse_period_key_to_ordinal "2025-W52" .WEEKLY = some 739607
    ∧ parse_period_key_to_ordinal "2026-W01" .WEEKLY = some (739607 + 7)
    ∧ longest_streak_for_habit ⟨1, "gym", .WEEKLY, 0, true⟩
        [⟨1, 0, "2025-W52"⟩, ⟨1, 0, "2026-W01"⟩] = 2
    ∧ compute_period_key ⟨2025, 12, 29⟩ .WEEKLY = "2026-W01" := by
  refine ⟨by decide, by decide, by decide, by decide⟩

/-! ## C8: blank habit names -/

/-- C8 (amended): with an active profile, `create_habit` on a name that is
blank after trimming raises the plain `ValueError` used in
`HabitService.create_habit` — not a member of the `errors.py` domain
taxonomy, which defines no `EmptyName` — and mutates nothing. -/
theorem C8_empty_name_value_error (st : Store) (name : String)
    (periodicity : Periodicity) (created_at : ℤ) (p : Profile)
    (hp : getActiveProfile st = .ok p) (hname : pyStrip name = "") :
    create_habit st name periodicity created_at
      = .error (.valueError "Habit name cannot be empty")
    ∧ runOp (.createHabit name periodicity created_at) st = st := by
  have h1 : create_habit st name periodicity created_at
      = .error (.valueError "Habit name cannot be empty") := by
    simp [create_habit, hp, hname, Bind.bind, Except.bind]
  exact ⟨h1, by simp [runOp, h1]⟩

/-- C8 witness: the amended behaviour at a concrete blank name. -/
theorem C8_empty_name_value_error_witness :
    create_habit stEmptyHabits "   " .DAILY 0
      = .error (.valueError "Habit name cannot be empty")
    ∧ runOp (.createHabit "   " .DAILY 0) stEmptyHabits = stEmptyHabits :=
  C8_empty_name_value_error stEmptyHabits "   " .DAILY 0 ⟨1, "ann"⟩ rfl rfl

/-- C8 counterexample: at the blank name the raised error is the plain
`ValueError`, not any member of the domain taxonomy, refuting the claim
that the failure is the domain error `EmptyName`. -/
theorem C8_counterexample :
    create_habit stEmptyHabits "   " .DAILY 0
      = .error (.valueError "Habit name cannot be empty")
    ∧ isDomainErrorResult (create_habit stEmptyHabits "   " .DAILY 0) = false :=
  ⟨rfl, rfl⟩

/-! ## C9: completing an archived habit -/

/-- C9: with an active profile and an owned habit that is archived,
`complete_habit` fails with `HabitArchived` for every timestamp and every
pre-existing completion set (the archived check precedes the
already-completed check), and the store is unchanged. -/
theorem C9_complete_archived_fails (xpEnabled : Bool) (st : Store) (habit_id : ℕ)
    (when : PyDate) (p : Profile) (h : Habit)
    (hp : getActiveProfile st = .ok p)
    (hfind : st.habits.find? (fun x => x.id == habit_id) = some h)
    (hown : h.profile_id = p.id)
    (harch : h.is_active = false) :
    complete_habit xpEnabled st habit_id when
      = .error (.domain (.habitArchived habit_id))
    ∧ runOp (.completeHabit xpEnabled habit_id when) st = st := by
  have h1 : complete_habit xpEnabled st habit_id when
      = .error (.domain (.habitArchived habit_id)) := by
    simp [complete_habit, hp, hfind, hown, harch, Bind.bind, Except.bind]
  exact ⟨h1, by simp [runOp, h1]⟩

/-- C9 witness: completing the archived habit of the fixture store fails
with `HabitArchived` whether or not completions exist. -/
theorem C9_complete_archived_fails_witness :
    complete_habit true stArchived 1 ⟨2025, 3, 1⟩
      = .error (.domain (.habitArchived 1))
    ∧ runOp (.completeHabit true 1 ⟨2025, 3, 1⟩) stArchived = stArchived :=
  C9_complete_archived_fails true stArchived 1 ⟨2025, 3, 1⟩ ⟨1, "ann"⟩
    ⟨1, 1, "run", .DAILY, 0, false⟩ rfl rfl rfl rfl

/-! ## Helper lemmas about the store operations -/

theorem create_habit_ok_of (st : Store) (name : String) (periodicity : Periodicity)
    (created_at : ℤ) (prof : Profile) (hp : getActiveProfile st = .ok prof)
    (hname : pyStrip name ≠ "")
    (hfind : st.habits.find? (fun h =>
        h.profile_id == prof.id && h.name == pyStrip name && h.is_active) = none) :
    (create_habit st name periodicity created_at).isOk = true := by
  simp [create_habit, hp, Bind.bind, Except.bind, hname, hfind, Except.isOk,
    Except.toBool]

theorem find?_append_of_none {α : Type} (p : α → Bool) (l₁ l₂ : List α)
    (h : l₁.find? p = none) : (l₁ ++ l₂).find? p = l₂.find? p := by
  induction l₁ with
  | nil => simp
  | cons x xs ih =>
      rcases hpx : p x with _ | _
      · simp only [List.cons_append, List.find?_cons, hpx] at h ⊢
        exact ih h
      · simp [List.find?_cons, hpx] at h

theorem award_preserves_tables (st : Store) (profile_id habit_id completion_id : ℕ) :
    (award_habit_completion st profile_id habit_id completion_id).2.profiles
        = st.profiles
    ∧ (award_habit_completion st profile_id habit_id completion_id).2.appStateRow
        = st.appStateRow
    ∧ (award_habit_completion st profile_id habit_id completion_id).2.habits
        = st.habits
    ∧ (award_habit_completion st profile_id habit_id completion_id).2.completions
        = st.completions := by
  cases hfind : st.xpEvents.find? (fun e => e.completion_id == some completion_id) with
  | none => simp [award_habit_completion, hfind]
  | some e => simp [award_habit_completion, hfind]

theorem getActiveProfile_congr (st st' : Store)
    (hprof : st'.profiles = st.profiles)
    (happ : st'.appStateRow = st.appStateRow) :
    getActiveProfile st' = getActiveProfile st := by
  unfold getActiveProfile
  rw [hprof, happ]

/-! ## C3: XP award idempotency -/

/-- C3: `award_habit_completion` is idempotent on `completion_id`.  When
some XPEvent already references the completion id, the first such event is
returned and the store is untouched; otherwise exactly one new event with
amount 1 and reason HABIT_COMPLETION is appended, after which the store
holds exactly one event referencing the completion id, and a second award
returns that same event and leaves the store unchanged. -/
theorem C3_award_idempotent (st : Store) (profile_id habit_id completion_id : ℕ) :
    (∀ e, st.xpEvents.find? (fun x => x.completion_id == some completion_id) = some e →
        award_habit_completion st profile_id habit_id completion_id = (e, st))
    ∧ (st.xpEvents.find? (fun x => x.completion_id == some completion_id) = none →
        (award_habit_completion st profile_id habit_id completion_id).1.amount = 1
        ∧ (award_habit_completion st profile_id habit_id completion_id).1.reason
            = "HABIT_COMPLETION"
        ∧ (award_habit_completion st profile_id habit_id completion_id).2.xpEvents
            = st.xpEvents
              ++ [(award_habit_completion st profile_id habit_id completion_id).1]
        ∧ ((award_habit_completion st profile_id habit_id completion_id).2.xpEvents.filter
              (fun x => x.completion_id == some completion_id)).length = 1
        ∧ award_habit_completion
              (award_habit_completion st profile_id habit_id completion_id).2
              profile_id habit_id completion_id
            = award_habit_completion st profile_id habit_id completion_id) := by
  constructor
  · intro e he
    unfold award_habit_completion
    rw [he]
  · intro hnone
    have hfilter_old : st.xpEvents.filter
        (fun x => x.completion_id == some completion_id) = [] := by
      rw [List.filter_eq_nil_iff]
      intro x hx
      exact List.find?_eq_none.mp hnone x hx
    refine ⟨?_, ?_, ?_, ?_, ?_⟩
    · simp [award_habit_completion, hnone]
    · simp [award_habit_completion, hnone]
    · simp [award_habit_completion, hnone]
    · simp [award_habit_completion, hnone, List.filter_append, hfilter_old]
    · simp [award_habit_completion, hnone, find?_append_of_none _ _ _ hnone]

theorem habit_eq_of_id_eq (l : List Habit)
    (hnd : (l.map (fun x => x.id)).Nodup) :
    ∀ x ∈ l, ∀ y ∈ l, x.id = y.id → x = y := by
  induction l with
  | nil => intro x hx; cases hx
  | cons a as ih =>
      simp only [List.map_cons, List.nodup_cons] at hnd
      intro x hx y hy hxy
      rcases List.mem_cons.mp hx with rfl | hx'
      · rcases List.mem_cons.mp hy with rfl | hy'
        · rfl
        · exact absurd (hxy ▸ List.mem_map_of_mem (fun z => z.id) hy') hnd.1
      · rcases List.mem_cons.mp hy with rfl | hy'
        · exact absurd (hxy ▸ List.mem_map_of_mem (fun z => z.id) hx') hnd.1
        · exact ih hnd.2 x hx' y hy' hxy

theorem create_habit_ok_shape (st : Store) (name : String) (p : Periodicity)
    (ca : ℤ) (r : Habit × Store)
    (hok : create_habit st name p ca = .ok r) :
    r.2.habits = st.habits ++ [r.1] ∧ r.1.id = st.nextHabitId := by
  unfold create_habit at hok
  cases hgp : getActiveProfile st with
  | error e => rw [hgp] at hok; cases hok
  | ok prof =>
      rw [hgp] at hok
      simp only [Bind.bind, Except.bind] at hok
      split_ifs at hok
      rcases hfind : st.habits.find? (fun h =>
          h.profile_id == prof.id && h.name == pyStrip name && h.is_active) with _ | hb
      · rw [hfind] at hok
        simp only [Except.ok.injEq] at hok
        rw [← hok]
        exact ⟨rfl, rfl⟩
      · rw [hfind] at hok
        cases hok

theorem archive_habit_ok_shape (st : Store) (habit_id : ℕ) (r : Habit × Store)
    (hok : archive_habit st habit_id = .ok r) :
    r.2.habits = st.habits.map (fun x =>
      if x.id == habit_id then { x with is_active := false } else x) := by
  unfold archive_habit at hok
  cases hgp : getActiveProfile st with
  | error e => rw [hgp] at hok; cases hok
  | ok prof =>
      rw [hgp] at hok
      simp only [Bind.bind, Except.bind] at hok
      rcases hfind : st.habits.find? (fun h => h.id == habit_id) with _ | hb
      · simp only [hfind] at hok
        cases hok
      · simp only [hfind] at hok
        split_ifs at hok
        cases hok
        rfl

theorem complete_habit_ok_shape (xpEnabled : Bool) (st : Store) (habit_id : ℕ)
    (w : PyDate) (r : Completion × Store)
    (hok : complete_habit xpEnabled st habit_id w = .ok r) :
    r.2.habits = st.habits := by
  unfold complete_habit at hok
  cases hgp : getActiveProfile st with
  | error e => rw [hgp] at hok; cases hok
  | ok prof =>
      rw [hgp] at hok
      simp only [Bind.bind, Except.bind] at hok
      rcases hfind : st.habits.find? (fun h => h.id == habit_id) with _ | hb
      · simp only [hfind] at hok
        cases hok
      · simp only [hfind] at hok
        split_ifs at hok
        · rcases hfc : st.completions.find? (fun c => c.habit_id == habit_id
              && c.period_key == compute_period_key w hb.periodicity) with _ | c0
          · simp only [hfc, Except.ok.injEq] at hok
            rw [← hok]
            simp [(award_preserves_tables _ _ _ _).2.2.1]
          · simp only [hfc] at hok
            cases hok
        · rcases hfc : st.completions.find? (fun c => c.habit_id == habit_id
              && c.period_key == compute_period_key w hb.periodicity) with _ | c0
          · simp only [hfc, Except.ok.injEq] at hok
            rw [← hok]
          · simp only [hfc] at hok
            cases hok

/-! ## C6: duplicate names block creation only while active -/

/-- C6: with an active profile and a non-blank trimmed name,
`create_habit` fails with `HabitAlreadyExists` exactly when some active
habit of the profile already carries the trimmed name — archived
namesakes do not block — and consequently archiving the only active
habit with that name and then creating a habit with the same name
succeeds. -/
theorem C6_archived_names_reusable (st : Store) (name : String)
    (periodicity : Periodicity) (created_at : ℤ) (p : Profile)
    (hp : getActiveProfile st = .ok p)
    (hname : pyStrip name ≠ "") :
    (create_habit st name periodicity created_at
        = .error (.domain (.habitAlreadyExists (pyStrip name)))
      ↔ ∃ h ∈ st.habits, h.profile_id = p.id ∧ h.name = pyStrip name
          ∧ h.is_active = true)
    ∧ (∀ habit_id h, st.habits.find? (fun x => x.id == habit_id) = some h →
        h.profile_id = p.id →
        (∀ x ∈ st.habits, x.profile_id = p.id → x.name = pyStrip name →
            x.is_active = true → x.id = habit_id) →
        ∃ a st1, archive_habit st habit_id = .ok (a, st1)
          ∧ (create_habit st1 name periodicity created_at).isOk = true) := by
  constructor
  · rcases hfind : st.habits.find? (fun h =>
        h.profile_id == p.id && h.name == pyStrip name && h.is_active) with _ | hb
    · have hok : ∀ e, create_habit st name periodicity created_at ≠ .error e := by
        intro e hcontra
        simp [create_habit, hp, Bind.bind, Except.bind, hname, hfind] at hcontra
      constructor
      · intro hcontra
        exact absurd hcontra (hok _)
      · rintro ⟨h, hmem, h1, h2, h3⟩
        have hnone := List.find?_eq_none.mp hfind h hmem
        simp [h1, h2, h3] at hnone
    · have herr : create_habit st name periodicity created_at
          = .error (.domain (.habitAlreadyExists (pyStrip name))) := by
        simp [create_habit, hp, Bind.bind, Except.bind, hname, hfind]
      refine ⟨fun _ => ?_, fun _ => herr⟩
      have hpred := List.find?_some hfind
      have hmem := List.mem_of_find?_eq_some hfind
      simp only [Bool.and_eq_true, beq_iff_eq] at hpred
      exact ⟨hb, hmem, hpred.1.1, hpred.1.2, hpred.2⟩
  · intro habit_id h hfindh hown honly
    refine ⟨{ h with is_active := false },
      { st with habits := st.habits.map (fun x =>
          if x.id == habit_id then { x with is_active := false } else x) }, ?_, ?_⟩
    · simp [archive_habit, hp, Bind.bind, Except.bind, hfindh, hown]
    · have hpA : getActiveProfile { st with habits := st.habits.map (fun x =>
          if x.id == habit_id then { x with is_active := false } else x) } = .ok p :=
        hp
      have hfindA : (st.habits.map (fun x =>
          if x.id == habit_id then { x with is_active := false } else x)).find?
            (fun h => h.profile_id == p.id && h.name == pyStrip name && h.is_active)
          = none := by
        rw [List.find?_eq_none]
        intro x hx
        obtain ⟨x0, hx0, rfl⟩ := List.mem_map.mp hx
        by_cases hid : (x0.id == habit_id) = true
        · simp [hid]
        · have hif : (if (x0.id == habit_id) = true
              then ({ x0 with is_active := false } : Habit) else x0) = x0 := by
            simp [hid]
          rw [hif]
          simp only [Bool.and_eq_true, beq_iff_eq]
          rintro ⟨⟨hprof, hnm⟩, hact⟩
          exact absurd (honly x0 hx0 hprof hnm hact) (by simpa using hid)
      exact create_habit_ok_of _ name periodicity created_at p hpA hname hfindA

/-- A fixture for C6: one active habit named run owned by the active
profile. -/
def stC6 : Store :=
  ⟨[⟨1, "ann"⟩], some ⟨some 1⟩, [⟨1, 1, "run", .DAILY, 0, true⟩], [], [], 2, 1, 1⟩

/-- C6 witness: in the fixture store, creating run fails with
`HabitAlreadyExists`, and archiving habit 1 then creating run succeeds. -/
theorem C6_archived_names_reusable_witness :
    (∃ h ∈ stC6.habits, h.profile_id = 1 ∧ h.name = pyStrip "run"
      ∧ h.is_active = true)
    ∧ create_habit stC6 "run" .DAILY 0
        = .error (.domain (.habitAlreadyExists (pyStrip "run")))
    ∧ ∃ a st1, archive_habit stC6 1 = .ok (a, st1)
        ∧ (create_habit st1 "run" .DAILY 0).isOk = true := by
  have hmain := C6_archived_names_reusable stC6 "run" .DAILY 0 ⟨1, "ann"⟩ rfl
    (by decide)
  have hex : ∃ h ∈ stC6.habits, h.profile_id = (⟨1, "ann"⟩ : Profile).id
      ∧ h.name = pyStrip "run" ∧ h.is_active = true := by
    refine ⟨⟨1, 1, "run", .DAILY, 0, true⟩, by decide, rfl, by decide, rfl⟩
  exact ⟨hex, hmain.1.mpr hex,
    hmain.2 1 ⟨1, 1, "run", .DAILY, 0, true⟩ rfl rfl (by decide)⟩

/-! ## C10: archival is terminal and re-archiving is a no-op -/

/-- C10: archiving an already-archived (owned) habit succeeds and is a
no-op — the returned habit still has `is_active = false` and the store is
unchanged — and no engine operation ever flips a habit back from
`is_active = false` to `is_active = true` (stated for well-formed stores:
primary keys are unique and below the auto-increment counter). -/
theorem C10_archive_noop_and_terminal :
    (∀ st habit_id p h, getActiveProfile st = .ok p →
        st.habits.find? (fun x => x.id == habit_id) = some h →
        h.profile_id = p.id → h.is_active = false →
        (st.habits.map (fun x => x.id)).Nodup →
        archive_habit st habit_id = .ok (h, st))
    ∧ (∀ op st h, (∀ x ∈ st.habits, x.id < st.nextHabitId) →
        (st.habits.map (fun x => x.id)).Nodup →
        h ∈ st.habits → h.is_active = false →
        ∀ h2 ∈ (runOp op st).habits, h2.id = h.id → h2.is_active = false) := by
  constructor
  · intro st habit_id p h hp hfind hown harch hnd
    have hmem : h ∈ st.habits := List.mem_of_find?_eq_some hfind
    have hid : h.id = habit_id := by simpa using List.find?_some hfind
    have hupd : ({ h with is_active := false } : Habit) = h := by
      rcases h with ⟨a, b, c, d, e, f⟩
      simp only at harch
      rw [harch]
    have hmap : st.habits.map (fun x =>
        if x.id == habit_id then { x with is_active := false } else x) = st.habits := by
      have : ∀ x ∈ st.habits, (if x.id == habit_id
          then ({ x with is_active := false } : Habit) else x) = id x := by
        intro x hx
        by_cases hxid : (x.id == habit_id) = true
        · have hxh : x = h := habit_eq_of_id_eq st.habits hnd x hx h hmem
            (by rw [beq_iff_eq.mp hxid, hid])
          subst hxh
          simp [hxid, hupd]
        · simp [hxid]
      rw [List.map_congr_left this, List.map_id]
    simp only [archive_habit, hp, Bind.bind, Except.bind, hfind]
    rw [if_neg (by simp [hown])]
    rw [hupd, hmap]
  · intro op st h hlt hnd hmem harch h2 hmem2 hid2
    have heqh : ∀ x ∈ st.habits, x.id = h.id → x.is_active = false := by
      intro x hx hxid
      rw [habit_eq_of_id_eq st.habits hnd x hx h hmem hxid]
      exact harch
    cases op with
    | createHabit n per ca =>
        cases hc : create_habit st n per ca with
        | error e =>
            simp only [runOp, hc] at hmem2
            exact heqh h2 hmem2 hid2
        | ok r =>
            simp only [runOp, hc] at hmem2
            obtain ⟨hshape, hidr⟩ := create_habit_ok_shape st n per ca r hc
            rw [hshape] at hmem2
            rcases List.mem_append.mp hmem2 with hold | hnew
            · exact heqh h2 hold hid2
            · have : h2 = r.1 := by simpa using hnew
              rw [this, hidr] at hid2
              exact absurd (hid2 ▸ hlt h hmem) (lt_irrefl _)
    | archiveHabit hid =>
        cases hc : archive_habit st hid with
        | error e =>
            simp only [runOp, hc] at hmem2
            exact heqh h2 hmem2 hid2
        | ok r =>
            simp only [runOp, hc] at hmem2
            rw [archive_habit_ok_shape st hid r hc] at hmem2
            obtain ⟨x0, hx0, rfl⟩ := List.mem_map.mp hmem2
            by_cases hxid : (x0.id == hid) = true
            · simp [hxid]
            · simp only [hxid, Bool.false_eq_true, if_false] at hid2 ⊢
              exact heqh x0 hx0 hid2
    | completeHabit xp hid w =>
        cases hc : complete_habit xp st hid w with
        | error e =>
            simp only [runOp, hc] at hmem2
            exact heqh h2 hmem2 hid2
        | ok r =>
            simp only [runOp, hc] at hmem2
            rw [complete_habit_ok_shape xp st hid w r hc] at hmem2
            exact heqh h2 hmem2 hid2
    | awardXP pid hid cid =>
        simp only [runOp] at hmem2
        rw [(award_preserves_tables st pid hid cid).2.2.1] at hmem2
        exact heqh h2 hmem2 hid2

/-- A fixture for C10: an archived habit in a well-formed store. -/
def stC10 : Store :=
  ⟨[⟨1, "ann"⟩], some ⟨some 1⟩, [⟨1, 1, "run", .DAILY, 0, false⟩], [], [], 2, 1, 1⟩

/-- C10 witness: re-archiving the archived habit 1 of the fixture store
returns it unchanged, and creating a new habit afterwards leaves every
habit with id 1 inactive. -/
theorem C10_archive_noop_and_terminal_witness :
    archive_habit stC10 1 = .ok (⟨1, 1, "run", .DAILY, 0, false⟩, stC10)
    ∧ ∀ h2 ∈ (runOp (.createHabit "new" .WEEKLY 0) stC10).habits,
        h2.id = 1 → h2.is_active = false := by
  have hmain := C10_archive_noop_and_terminal
  refine ⟨hmain.1 stC10 1 ⟨1, "ann"⟩ ⟨1, 1, "run", .DAILY, 0, false⟩ rfl rfl rfl rfl
    (by decide), ?_⟩
  intro h2 hmem hid
  exact hmain.2 (.createHabit "new" .WEEKLY 0) stC10 ⟨1, 1, "run", .DAILY, 0, false⟩
    (by decide) (by decide) (by decide) rfl h2 hmem hid

/-! ## C2: completing a habit twice for the same period -/

/-- C2: with an active profile and an owned, active habit, if `w1` and
`w2` encode to the same period key and no completion for that key exists
yet, the first `complete_habit` succeeds and stores a completion carrying
that key, and the second fails with `HabitAlreadyCompletedForPeriod`
carrying the same key while creating nothing. -/
theorem C2_double_completion (xpEnabled : Bool) (st : Store) (habit_id : ℕ)
    (w1 w2 : PyDate) (p : Profile) (h : Habit)
    (hp : getActiveProfile st = .ok p)
    (hfind : st.habits.find? (fun x => x.id == habit_id) = some h)
    (hown : h.profile_id = p.id)
    (hact : h.is_active = true)
    (hsame : compute_period_key w2 h.periodicity = compute_period_key w1 h.periodicity)
    (hnone : st.completions.find? (fun c => c.habit_id == habit_id
        && c.period_key == compute_period_key w1 h.periodicity) = none) :
    ∃ c st2, complete_habit xpEnabled st habit_id w1 = .ok (c, st2)
      ∧ c.period_key = compute_period_key w1 h.periodicity
      ∧ st2.completions = st.completions ++ [c]
      ∧ complete_habit xpEnabled st2 habit_id w2
          = .error (.domain (.habitAlreadyCompletedForPeriod habit_id
              (compute_period_key w1 h.periodicity)))
      ∧ runOp (.completeHabit xpEnabled habit_id w2) st2 = st2 := by
  set key := compute_period_key w1 h.periodicity with hkey
  set c : Completion := ⟨st.nextCompletionId, habit_id, w1, key⟩ with hc
  set st1 : Store :=
    { st with
        completions := st.completions ++ [c]
        nextCompletionId := st.nextCompletionId + 1 } with hst1
  set st2 : Store := if xpEnabled then
      (award_habit_completion st1 p.id habit_id c.id).2 else st1 with hst2
  have h1 : complete_habit xpEnabled st habit_id w1 = .ok (c, st2) := by
    simp only [complete_habit, hp, Bind.bind, Except.bind, hfind, hown, hact]
    rw [← hkey]
    simp [hnone, ← hc, ← hst1, ← hst2]
  have hprof2 : st2.profiles = st.profiles := by
    rw [hst2]
    rcases xpEnabled with _ | _
    · simp [hst1]
    · simp [(award_preserves_tables st1 p.id habit_id c.id).1, hst1]
  have happ2 : st2.appStateRow = st.appStateRow := by
    rw [hst2]
    rcases xpEnabled with _ | _
    · simp [hst1]
    · simp [(award_preserves_tables st1 p.id habit_id c.id).2.1, hst1]
  have hhab2 : st2.habits = st.habits := by
    rw [hst2]
    rcases xpEnabled with _ | _
    · simp [hst1]
    · simp [(award_preserves_tables st1 p.id habit_id c.id).2.2.1, hst1]
  have hcomp2 : st2.completions = st.completions ++ [c] := by
    rw [hst2]
    rcases xpEnabled with _ | _
    · simp [hst1]
    · simp [(award_preserves_tables st1 p.id habit_id c.id).2.2.2, hst1]
  have hp2 : getActiveProfile st2 = .ok p := by
    rw [getActiveProfile_congr st st2 hprof2 happ2, hp]
  have hfind2 : st2.completions.find? (fun x => x.habit_id == habit_id
      && x.period_key == key) = some c := by
    rw [hcomp2, find?_append_of_none _ _ _ hnone]
    simp [List.find?_cons, hc]
  have h2 : complete_habit xpEnabled st2 habit_id w2
      = .error (.domain (.habitAlreadyCompletedForPeriod habit_id key)) := by
    simp only [complete_habit, hp2, Bind.bind, Except.bind, hhab2, hfind, hown, hact]
    rw [hsame]
    simp [hfind2]
  exact ⟨c, st2, h1, rfl, hcomp2, h2, by simp [runOp, h2]⟩

/-- A fixture for C2: an active profile owning one active daily habit. -/
def stC2 : Store :=
  ⟨[⟨1, "ann"⟩], some ⟨some 1⟩, [⟨1, 1, "run", .DAILY, 0, true⟩], [], [], 2, 1, 1⟩

/-- C2 witness: completing habit 1 twice on the same day (different
`PyDate` values encoding to the same daily key would also do; here the
same date is used) succeeds once and then fails with the same key. -/
theorem C2_double_completion_witness :
    ∃ c st2, complete_habit true stC2 1 ⟨2025, 3, 1⟩ = .ok (c, st2)
      ∧ c.period_key = compute_period_key ⟨2025, 3, 1⟩ .DAILY
      ∧ st2.completions = stC2.completions ++ [c]
      ∧ complete_habit true st2 1 ⟨2025, 3, 1⟩
          = .error (.domain (.habitAlreadyCompletedForPeriod 1
              (compute_period_key ⟨2025, 3, 1⟩ .DAILY)))
      ∧ runOp (.completeHabit true 1 ⟨2025, 3, 1⟩) st2 = st2 :=
  C2_double_completion true stC2 1 ⟨2025, 3, 1⟩ ⟨2025, 3, 1⟩ ⟨1, "ann"⟩
    ⟨1, 1, "run", .DAILY, 0, true⟩ rfl rfl rfl rfl rfl rfl

/-- A fixture for C3: a store whose XP table is empty. -/
def stXP : Store :=
  ⟨[⟨1, "ann"⟩], some ⟨some 1⟩, [⟨1, 1, "run", .DAILY, 0, true⟩],
    [⟨1, 1, ⟨2025, 3, 1⟩, "2025-03-01"⟩], [], 2, 2, 1⟩

/-- C3 witness: awarding twice for completion 1 in the fixture store
creates exactly one event and returns it both times. -/
theorem C3_award_idempotent_witness :
    (award_habit_completion stXP 1 1 1).1.amount = 1
    ∧ (award_habit_completion stXP 1 1 1).1.reason = "HABIT_COMPLETION"
    ∧ (award_habit_completion stXP 1 1 1).2.xpEvents
        = stXP.xpEvents ++ [(award_habit_completion stXP 1 1 1).1]
    ∧ ((award_habit_completion stXP 1 1 1).2.xpEvents.filter
          (fun x => x.completion_id == some 1)).length = 1
    ∧ award_habit_completion (award_habit_completion stXP 1 1 1).2 1 1 1
        = award_habit_completion stXP 1 1 1 :=
  (C3_award_idempotent stXP 1 1 1).2 rfl

/-! ## C1: the streak scan computes the longest consecutive run -/

/-- Length of the run of consecutive ordinals (gap `step`) at the head of
a list (proof-side recursion used to relate the scan to the spec). -/
def runAt (step : ℤ) : List ℤ → ℕ
  | [] => 0
  | [_] => 1
  | x :: y :: xs => if y = x + step then 1 + runAt step (y :: xs) else 1

/-- The longest head-run over all suffixes (proof-side recursion). -/
def maxRunRec (step : ℤ) : List ℤ → ℕ
  | [] => 0
  | x :: xs => max (runAt step (x :: xs)) (maxRunRec step xs)

theorem runAt_pos (step : ℤ) (x : ℤ) (xs : List ℤ) : 1 ≤ runAt step (x :: xs) := by
  cases xs with
  | nil => simp [runAt]
  | cons y ys =>
      rw [runAt]
      split_ifs <;> omega

theorem streakScan_formula (step : ℤ) : ∀ (xs : List ℤ) (prev : ℤ) (cur maxS : ℕ),
    1 ≤ cur → cur ≤ maxS →
    streakScan step xs prev cur maxS
      = max maxS (max (cur - 1 + runAt step (prev :: xs)) (maxRunRec step xs)) := by
  intro xs
  induction xs with
  | nil =>
      intro prev cur maxS h1 h2
      simp only [streakScan, runAt, maxRunRec]
      omega
  | cons x xs ih =>
      intro prev cur maxS h1 h2
      by_cases hx : x = prev + step
      · rw [streakScan, if_pos hx, ih x (cur + 1) (max maxS (cur + 1)) (by omega)
          (by omega)]
        rw [runAt, if_pos hx, maxRunRec]
        have hra := runAt_pos step x xs
        omega
      · rw [streakScan, if_neg hx, ih x 1 maxS (by omega) (by omega)]
        rw [runAt, if_neg hx, maxRunRec]
        have hra := runAt_pos step x xs
        omega

theorem streakScan_entry (step : ℤ) (x : ℤ) (xs : List ℤ) :
    streakScan step xs x 1 1 = maxRunRec step (x :: xs) := by
  rw [streakScan_formula step xs x 1 1 le_rfl le_rfl, maxRunRec]
  have hra := runAt_pos step x xs
  omega

theorem runAt_chain (step : ℤ) : ∀ (x : ℤ) (xs : List ℤ), ∀ i < runAt step (x :: xs),
    x + step * (i : ℤ) ∈ x :: xs := by
  intro x xs
  induction xs generalizing x with
  | nil =>
      intro i hi
      simp only [runAt] at hi
      have : i = 0 := by omega
      subst this
      simp
  | cons y ys ih =>
      intro i hi
      rw [runAt] at hi
      by_cases hy : y = x + step
      · rw [if_pos hy] at hi
        cases i with
        | zero => simp
        | succ j =>
            have hj : j < runAt step (y :: ys) := by omega
            have hmem := ih y j hj
            have heq : x + step * ((j + 1 : ℕ) : ℤ) = y + step * (j : ℤ) := by
              rw [hy]
              push_cast
              ring
            rw [heq]
            exact List.mem_cons_of_mem x hmem
      · rw [if_neg hy] at hi
        have : i = 0 := by omega
        subst this
        simp

theorem hasRunOfLen_mono (S : Finset ℤ) (step : ℤ) {m n : ℕ} (hmn : m ≤ n)
    (h : hasRunOfLen S step n) : hasRunOfLen S step m := by
  cases h with
  | inl h0 => left; omega
  | inr h =>
      obtain ⟨a, ha, hall⟩ := h
      right
      exact ⟨a, ha, fun i hi => hall i (by omega)⟩

theorem hasRunOfLen_subset {S T : Finset ℤ} (hST : S ⊆ T) (step : ℤ) (n : ℕ)
    (h : hasRunOfLen S step n) : hasRunOfLen T step n := by
  cases h with
  | inl h0 => exact Or.inl h0
  | inr h =>
      obtain ⟨a, ha, hall⟩ := h
      exact Or.inr ⟨a, hST ha, fun i hi => hST (hall i hi)⟩

theorem hasRunOfLen_card_le {S : Finset ℤ} {step : ℤ} (hstep : 0 < step) {n : ℕ}
    (h : hasRunOfLen S step n) : n ≤ S.card := by
  cases h with
  | inl h0 => omega
  | inr h =>
      obtain ⟨a, ha, hall⟩ := h
      have hcard : (Finset.range n).card ≤ S.card := by
        refine Finset.card_le_card_of_injOn (fun i => a + step * (i : ℤ))
          (fun i hi => hall i (Finset.mem_range.mp hi)) ?_
        intro i _ j _ hij
        simp only at hij
        have h1 : step * (i : ℤ) = step * (j : ℤ) := by omega
        have h2 : (i : ℤ) = (j : ℤ) := mul_left_cancel₀ (by omega) h1
        exact_mod_cast h2
      simpa using hcard

theorem longestRunSpec_hasRun (S : Finset ℤ) (step : ℤ) :
    hasRunOfLen S step (longestRunSpec S step) :=
  Nat.findGreatest_spec (Nat.zero_le _) (Or.inl rfl)

theorem le_longestRunSpec {S : Finset ℤ} {step : ℤ} {n : ℕ} (hstep : 0 < step)
    (h : hasRunOfLen S step n) : n ≤ longestRunSpec S step :=
  Nat.le_findGreatest (hasRunOfLen_card_le hstep h) h

theorem longestRunSpec_empty (step : ℤ) : longestRunSpec ∅ step = 0 := by
  simp [longestRunSpec]

theorem longestRunSpec_singleton (a step : ℤ) (hstep : 0 < step) :
    longestRunSpec {a} step = 1 := by
  apply le_antisymm
  · have h := Nat.findGreatest_le (P := hasRunOfLen ({a} : Finset ℤ) step) 1
    simpa [longestRunSpec] using h
  · apply le_longestRunSpec hstep
    right
    refine ⟨a, Finset.mem_singleton_self a, fun i hi => ?_⟩
    have : i = 0 := by omega
    subst this
    simp

theorem maxRunRec_hasRun (step : ℤ) (l : List ℤ) :
    hasRunOfLen l.toFinset step (maxRunRec step l) := by
  induction l with
  | nil => exact Or.inl rfl
  | cons x xs ih =>
      rw [maxRunRec]
      have hA : hasRunOfLen (x :: xs).toFinset step (runAt step (x :: xs)) := by
        right
        refine ⟨x, by simp, fun i hi => ?_⟩
        rw [List.mem_toFinset]
        exact runAt_chain step x xs i hi
      have hB : hasRunOfLen (x :: xs).toFinset step (maxRunRec step xs) := by
        apply hasRunOfLen_subset _ step _ ih
        intro z hz
        rw [List.mem_toFinset] at hz ⊢
        exact List.mem_cons_of_mem x hz
      rcases le_total (runAt step (x :: xs)) (maxRunRec step xs) with h | h
      · rw [max_eq_right h]
        exact hB
      · rw [max_eq_left h]
        exact hA

theorem chain_le_runAt (step : ℤ) (hstep : 0 < step) :
    ∀ (xs : List ℤ) (x : ℤ), (x :: xs).Pairwise (· < ·) →
    (∀ a ∈ x :: xs, ∀ b ∈ x :: xs, step ∣ (a - b)) →
    ∀ n : ℕ, (∀ i : ℕ, i < n → x + step * (i : ℤ) ∈ x :: xs) →
      n ≤ runAt step (x :: xs) := by
  intro xs
  induction xs with
  | nil =>
      intro x _ _ n hall
      by_contra hlt
      push_neg at hlt
      have hn2 : 2 ≤ n := by
        simp only [runAt] at hlt
        omega
      have h1 := hall 1 (by omega)
      simp at h1
      omega
  | cons y ys ih =>
      intro x hsort hres n hall
      by_cases hn1 : n ≤ 1
      · have := runAt_pos step x (y :: ys)
        omega
      push_neg at hn1
      have h1 : x + step ∈ x :: y :: ys := by
        have := hall 1 (by omega)
        simpa using this
      have hxy : x < y := (List.pairwise_cons.mp hsort).1 y (by simp)
      have h1' : x + step ∈ y :: ys := by
        rcases List.mem_cons.mp h1 with h | h
        · omega
        · exact h
      have hsort' : (y :: ys).Pairwise (· < ·) := List.Pairwise.of_cons hsort
      have hyx : y = x + step := by
        have hge : ∀ z ∈ y :: ys, y ≤ z := by
          intro z hz
          rcases List.mem_cons.mp hz with rfl | hz'
          · exact le_rfl
          · exact le_of_lt ((List.pairwise_cons.mp hsort').1 z hz')
        have hle : y ≤ x + step := hge _ h1'
        have hdvd : step ∣ (y - x) := hres y (by simp) x (by simp)
        obtain ⟨c, hc⟩ := hdvd
        have hc1 : 1 ≤ c := by nlinarith
        have hys : step ≤ y - x := by nlinarith
        omega
      rw [runAt, if_pos hyx]
      have hchain : ∀ i < n - 1, y + step * (i : ℤ) ∈ y :: ys := by
        intro i hi
        have hmem := hall (i + 1) (by omega)
        have heq : x + step * ((i + 1 : ℕ) : ℤ) = y + step * (i : ℤ) := by
          rw [hyx]
          push_cast
          ring
        rw [heq] at hmem
        rcases List.mem_cons.mp hmem with h | h
        · have hsi : 0 ≤ step * (i : ℤ) := mul_nonneg (by omega) (Int.ofNat_nonneg i)
          omega
        · exact h
      have hres' : ∀ a ∈ y :: ys, ∀ b ∈ y :: ys, step ∣ (a - b) := by
        intro a ha b hb
        exact hres a (List.mem_cons_of_mem x ha) b (List.mem_cons_of_mem x hb)
      have := ih y hsort' hres' (n - 1) hchain
      omega

theorem hasRun_le_maxRunRec (step : ℤ) (hstep : 0 < step) :
    ∀ (l : List ℤ), l.Pairwise (· < ·) →
    (∀ a ∈ l, ∀ b ∈ l, step ∣ (a - b)) →
    ∀ n, hasRunOfLen l.toFinset step n → n ≤ maxRunRec step l := by
  intro l
  induction l with
  | nil =>
      intro _ _ n h
      cases h with
      | inl h0 => omega
      | inr h =>
          obtain ⟨a, ha, _⟩ := h
          simp at ha
  | cons x xs ih =>
      intro hsort hres n h
      cases h with
      | inl h0 => omega
      | inr hr =>
          obtain ⟨a, ha, hall⟩ := hr
          rw [List.mem_toFinset] at ha
          rw [maxRunRec]
          by_cases hax : a = x
          · subst hax
            have hn : n ≤ runAt step (a :: xs) := by
              apply chain_le_runAt step hstep xs a hsort hres n
              intro i hi
              have := hall i hi
              rwa [List.mem_toFinset] at this
            omega
          · have ha' : a ∈ xs := by
              rcases List.mem_cons.mp ha with h | h
              · exact absurd h hax
              · exact h
            have hxa : x < a := (List.pairwise_cons.mp hsort).1 a ha'
            have hchainT : hasRunOfLen xs.toFinset step n := by
              right
              refine ⟨a, List.mem_toFinset.mpr ha', fun i hi => ?_⟩
              have hmem := hall i hi
              rw [List.mem_toFinset] at hmem ⊢
              rcases List.mem_cons.mp hmem with h | h
              · have hsi : 0 ≤ step * (i : ℤ) :=
                  mul_nonneg (by omega) (Int.ofNat_nonneg i)
                omega
              · exact h
            have hres' : ∀ a ∈ xs, ∀ b ∈ xs, step ∣ (a - b) := by
              intro u hu v hv
              exact hres u (List.mem_cons_of_mem x hu) v (List.mem_cons_of_mem x hv)
            have := ih (List.Pairwise.of_cons hsort) hres' n hchainT
            omega

theorem maxRunRec_eq_spec (step : ℤ) (hstep : 0 < step) (l : List ℤ)
    (hsort : l.Pairwise (· < ·))
    (hres : ∀ a ∈ l, ∀ b ∈ l, step ∣ (a - b)) :
    maxRunRec step l = longestRunSpec l.toFinset step := by
  apply le_antisymm
  · exact le_longestRunSpec hstep (maxRunRec_hasRun step l)
  · exact hasRun_le_maxRunRec step hstep l hsort hres _ (longestRunSpec_hasRun _ _)

theorem int_emod_eq_mod (x y : ℤ) : Int.emod x y = x % y := rfl

theorem isoweek1monday_emod (y : ℕ) : Int.emod (isoweek1monday y) 7 = 1 := by
  simp only [isoweek1monday, int_emod_eq_mod]
  split_ifs <;> omega

theorem weekly_decode_emod (k : String) (a : ℤ)
    (h : parse_period_key_to_ordinal k .WEEKLY = some a) : Int.emod a 7 = 1 := by
  unfold parse_period_key_to_ordinal at h
  rcases hsp : pySplitDashW k.data [] with _ | ⟨ys, _ | ⟨ws, _ | ⟨z, zs⟩⟩⟩
  · simp [hsp] at h
  · simp [hsp] at h
  · simp only [hsp] at h
    rcases hy : pyIntOfChars ys with _ | yv
    · simp [hy] at h
    · rcases hw : pyIntOfChars ws with _ | wv
      · simp [hy, hw] at h
      · simp only [hy, hw] at h
        simp only [fromisocalendarMondayOrd?] at h
        split_ifs at h
        injection h with h
        have hiso := isoweek1monday_emod yv.toNat
        rw [int_emod_eq_mod] at hiso ⊢
        omega
  · simp [hsp] at h

theorem decoded_residue (habit : HabitDTO) (completions : List CompletionDTO) :
    ∀ a ∈ (completions.filter (fun c => c.habit_id == habit.id)).filterMap
        (fun c => parse_period_key_to_ordinal c.period_key habit.periodicity),
      ∀ b ∈ (completions.filter (fun c => c.habit_id == habit.id)).filterMap
        (fun c => parse_period_key_to_ordinal c.period_key habit.periodicity),
      get_consecutive_step habit.periodicity ∣ (a - b) := by
  intro a ha b hb
  cases hper : habit.periodicity with
  | DAILY =>
      simp [get_consecutive_step]
  | WEEKLY =>
      obtain ⟨ca, _, hpa⟩ := List.mem_filterMap.mp ha
      obtain ⟨cb, _, hpb⟩ := List.mem_filterMap.mp hb
      rw [hper] at hpa hpb
      have h1 := weekly_decode_emod _ _ hpa
      have h2 := weekly_decode_emod _ _ hpb
      rw [int_emod_eq_mod] at h1 h2
      simp only [get_consecutive_step]
      omega

theorem pairwise_lt_of_sorted_nodup (l : List ℤ) (hs : l.Sorted (· ≤ ·))
    (hn : l.Nodup) : l.Pairwise (· < ·) := by
  induction l with
  | nil => exact List.Pairwise.nil
  | cons x xs ih =>
      rw [List.sorted_cons] at hs
      rw [List.nodup_cons] at hn
      refine List.pairwise_cons.mpr ⟨?_, ih hs.2 hn.2⟩
      intro y hy
      exact lt_of_le_of_ne (hs.1 y hy) (fun he => hn.1 (he ▸ hy))

theorem step_pos (periodicity : Periodicity) : 0 < get_consecutive_step periodicity := by
  cases periodicity <;> simp [get_consecutive_step]

/-- C1: `longest_streak_for_habit` returns exactly the length of the
longest run of consecutive ordinals (gap = step of the cadence) among the
distinct ordinals of the successfully decoded period keys of the habit's
completions; keys that fail to decode are skipped, duplicates count once,
the result is 0 when nothing decodes and 1 when exactly one distinct
ordinal remains. -/
theorem C1_longest_streak_is_longest_run (habit : HabitDTO)
    (completions : List CompletionDTO) :
    longest_streak_for_habit habit completions
      = longestRunSpec (period_ordinals habit completions)
          (get_consecutive_step habit.periodicity)
    ∧ (period_ordinals habit completions = ∅ →
        longest_streak_for_habit habit completions = 0)
    ∧ (∀ a : ℤ, period_ordinals habit completions = {a} →
        longest_streak_for_habit habit completions = 1) := by
  have hstep := step_pos habit.periodicity
  have hmain : longest_streak_for_habit habit completions
      = longestRunSpec (period_ordinals habit completions)
          (get_consecutive_step habit.periodicity) := by
    by_cases h1 : (completions.filter (fun c => c.habit_id == habit.id)).isEmpty = true
    · have hnil : completions.filter (fun c => c.habit_id == habit.id) = [] :=
        List.isEmpty_iff.mp h1
      have hPO : period_ordinals habit completions = ∅ := by
        rw [period_ordinals, hnil]
        rfl
      rw [hPO, longestRunSpec_empty]
      simp [longest_streak_for_habit, h1]
    · by_cases h2 : ((completions.filter (fun c => c.habit_id == habit.id)).filterMap
          (fun c => parse_period_key_to_ordinal c.period_key habit.periodicity)).isEmpty
          = true
      · have hnil : (completions.filter (fun c => c.habit_id == habit.id)).filterMap
            (fun c => parse_period_key_to_ordinal c.period_key habit.periodicity) = [] :=
          List.isEmpty_iff.mp h2
        have hPO : period_ordinals habit completions = ∅ := by
          rw [period_ordinals, hnil]
          rfl
        rw [hPO, longestRunSpec_empty]
        simp [longest_streak_for_habit, h1, h2]
      · set decoded := (completions.filter (fun c => c.habit_id == habit.id)).filterMap
          (fun c => parse_period_key_to_ordinal c.period_key habit.periodicity)
          with hdec
        set l := decoded.dedup.insertionSort (· ≤ ·) with hldef
        have hdne : decoded ≠ [] := by
          intro hcontra
          rw [hcontra] at h2
          simp at h2
        have hlne : l ≠ [] := by
          obtain ⟨z, hz⟩ := List.exists_mem_of_ne_nil decoded hdne
          have hz1 : z ∈ decoded.dedup := List.mem_dedup.mpr hz
          have hz2 : z ∈ l := ((List.perm_insertionSort _ _).mem_iff).mpr hz1
          exact List.ne_nil_of_mem hz2
        obtain ⟨x, xs, hl⟩ := List.exists_cons_of_ne_nil hlne
        have hLHS : longest_streak_for_habit habit completions
            = streakScan (get_consecutive_step habit.periodicity) xs x 1 1 := by
          simp only [longest_streak_for_habit, h1, Bool.false_eq_true, if_false, ← hdec,
            h2, ← hldef, hl]
        have hmem : ∀ z : ℤ, z ∈ l ↔ z ∈ decoded := by
          intro z
          rw [(List.perm_insertionSort _ _).mem_iff, List.mem_dedup]
        have hsorted : l.Sorted (· ≤ ·) := List.sorted_insertionSort _ _
        have hnodup : l.Nodup :=
          ((List.perm_insertionSort _ _).nodup_iff).mpr (List.nodup_dedup _)
        have hpair := pairwise_lt_of_sorted_nodup l hsorted hnodup
        have hres : ∀ a ∈ l, ∀ b ∈ l,
            get_consecutive_step habit.periodicity ∣ (a - b) := by
          intro a ha b hb
          exact decoded_residue habit completions a ((hmem a).mp ha) b ((hmem b).mp hb)
        have hfin : l.toFinset = period_ordinals habit completions := by
          apply Finset.ext
          intro z
          rw [List.mem_toFinset, hmem z, period_ordinals, List.mem_toFinset]
        rw [hLHS, streakScan_entry, ← hl,
          maxRunRec_eq_spec _ hstep l hpair hres, hfin]
  refine ⟨hmain, ?_, ?_⟩
  · intro hS
    rw [hmain, hS, longestRunSpec_empty]
  · intro a hS
    rw [hmain, hS, longestRunSpec_singleton _ _ hstep]

/-- C1 witness: the conjuncts of the main theorem evaluated on concrete
inputs (a run of lengths 2 and 1 with an invalid key skipped and a
duplicate counted once). -/
theorem C1_longest_streak_is_longest_run_witness :
    longest_streak_for_habit ⟨1, "run", .DAILY, 0, true⟩
        [⟨1, 0, "2025-01-01"⟩, ⟨1, 0, "2025-01-02"⟩, ⟨1, 0, "2025-01-01"⟩,
         ⟨1, 0, "bogus"⟩, ⟨1, 0, "2025-01-05"⟩]
      = longestRunSpec (period_ordinals ⟨1, "run", .DAILY, 0, true⟩
          [⟨1, 0, "2025-01-01"⟩, ⟨1, 0, "2025-01-02"⟩, ⟨1, 0, "2025-01-01"⟩,
           ⟨1, 0, "bogus"⟩, ⟨1, 0, "2025-01-05"⟩]) 1
    ∧ longest_streak_for_habit ⟨1, "run", .DAILY, 0, true⟩ [⟨1, 0, "bogus"⟩] = 0
    ∧ longest_streak_for_habit ⟨1, "run", .DAILY, 0, true⟩
        [⟨1, 0, "2025-01-01"⟩, ⟨1, 0, "2025-01-01"⟩] = 1 := by
  refine ⟨?_, ?_, ?_⟩
  · exact (C1_longest_streak_is_longest_run ⟨1, "run", .DAILY, 0, true⟩
      [⟨1, 0, "2025-01-01"⟩, ⟨1, 0, "2025-01-02"⟩, ⟨1, 0, "2025-01-01"⟩,
       ⟨1, 0, "bogus"⟩, ⟨1, 0, "2025-01-05"⟩]).1
  · exact (C1_longest_streak_is_longest_run ⟨1, "run", .DAILY, 0, true⟩
      [⟨1, 0, "bogus"⟩]).2.1 (by decide)
  · exact (C1_longest_streak_is_longest_run ⟨1, "run", .DAILY, 0, true⟩
      [⟨1, 0, "2025-01-01"⟩, ⟨1, 0, "2025-01-01"⟩]).2.2 739252 (by decide)

/-! ## C5: the best-across-habits selection -/

theorem bestAcrossLoop_spec (completions : List CompletionDTO) :
    ∀ (hs : List HabitDTO) (bs : ℕ) (bh : Option HabitDTO),
    (bh = none → bs = 0) →
    (∀ b0, bh = some b0 → 0 < bs ∧ longest_streak_for_habit b0 completions = bs) →
    (bestAcrossLoop completions hs bs bh).1
        = max bs ((hs.map (fun h => longest_streak_for_habit h completions)).foldr max 0)
    ∧ ((bestAcrossLoop completions hs bs bh).2 = none →
        (bestAcrossLoop completions hs bs bh).1 = 0)
    ∧ (∀ b, (bestAcrossLoop completions hs bs bh).2 = some b →
        0 < (bestAcrossLoop completions hs bs bh).1
        ∧ longest_streak_for_habit b completions
            = (bestAcrossLoop completions hs bs bh).1
        ∧ (b ∈ hs ∨ bh = some b))
    ∧ (∀ h2 ∈ hs, longest_streak_for_habit h2 completions
          = (bestAcrossLoop completions hs bs bh).1 →
        0 < (bestAcrossLoop completions hs bs bh).1 →
        ∃ b, (bestAcrossLoop completions hs bs bh).2 = some b ∧ b.id ≤ h2.id)
    ∧ (∀ b0, bh = some b0 →
        ∃ b, (bestAcrossLoop completions hs bs bh).2 = some b
          ∧ (b.id ≤ b0.id ∨ bs < (bestAcrossLoop completions hs bs bh).1)) := by
  intro hs
  induction hs with
  | nil =>
      intro bs bh hnone hsome
      simp only [bestAcrossLoop, List.map_nil, List.foldr_nil]
      refine ⟨by omega, hnone, ?_, ?_, ?_⟩
      · intro b hb
        obtain ⟨h1, h2⟩ := hsome b hb
        exact ⟨h1, h2, Or.inr hb⟩
      · intro h2 hh2
        simp at hh2
      · intro b0 hb0
        exact ⟨b0, hb0, Or.inl le_rfl⟩
  | cons habit rest ih =>
      intro bs bh hnone hsome
      rcases bh with _ | b0
      · simp only [bestAcrossLoop, List.map_cons, List.foldr_cons]
        set s := longest_streak_for_habit habit completions with hs_def
        by_cases hlt : bs < s
        · rw [if_pos hlt]
          obtain ⟨I1, I2, I3, I4, I5⟩ := ih s (some habit) (by intro h; cases h)
            (by
              intro b1 hb1
              injection hb1 with hb1
              subst hb1
              exact ⟨by omega, rfl⟩)
          refine ⟨by omega, I2, ?_, ?_, ?_⟩
          · intro b hb
            obtain ⟨j1, j2, j3⟩ := I3 b hb
            refine ⟨j1, j2, Or.inl ?_⟩
            rcases j3 with j | j
            · exact List.mem_cons_of_mem habit j
            · injection j with j
              rw [← j]
              exact List.mem_cons_self habit rest
          · intro h2 hmem hstreak hpos
            rcases List.mem_cons.mp hmem with hme | hmem2
            · subst hme
              obtain ⟨b, hb, hd⟩ := I5 h2 rfl
              refine ⟨b, hb, ?_⟩
              rcases hd with hd | hd
              · exact hd
              · rw [← hs_def] at hstreak
                omega
            · exact I4 h2 hmem2 hstreak hpos
          · intro b1 hb1
            cases hb1
        · rw [if_neg hlt]
          have hbs0 : bs = 0 := hnone rfl
          obtain ⟨I1, I2, I3, I4, I5⟩ := ih bs none (fun _ => hbs0)
            (by intro b1 hb1; cases hb1)
          refine ⟨by omega, I2, ?_, ?_, ?_⟩
          · intro b hb
            obtain ⟨j1, j2, j3⟩ := I3 b hb
            refine ⟨j1, j2, ?_⟩
            rcases j3 with j | j
            · exact Or.inl (List.mem_cons_of_mem habit j)
            · cases j
          · intro h2 hmem hstreak hpos
            rcases List.mem_cons.mp hmem with hme | hmem2
            · subst hme
              rw [← hs_def] at hstreak
              omega
            · exact I4 h2 hmem2 hstreak hpos
          · intro b1 hb1
            cases hb1
      · simp only [bestAcrossLoop, List.map_cons, List.foldr_cons]
        set s := longest_streak_for_habit habit completions with hs_def
        obtain ⟨hb0pos, hb0streak⟩ := hsome b0 rfl
        by_cases hlt : bs < s
        · rw [if_pos hlt]
          obtain ⟨I1, I2, I3, I4, I5⟩ := ih s (some habit) (by intro h; cases h)
            (by
              intro b1 hb1
              injection hb1 with hb1
              subst hb1
              exact ⟨by omega, rfl⟩)
          refine ⟨by omega, I2, ?_, ?_, ?_⟩
          · intro b hb
            obtain ⟨j1, j2, j3⟩ := I3 b hb
            refine ⟨j1, j2, Or.inl ?_⟩
            rcases j3 with j | j
            · exact List.mem_cons_of_mem habit j
            · injection j with j
              rw [← j]
              exact List.mem_cons_self habit rest
          · intro h2 hmem hstreak hpos
            rcases List.mem_cons.mp hmem with hme | hmem2
            · subst hme
              obtain ⟨b, hb, hd⟩ := I5 h2 rfl
              refine ⟨b, hb, ?_⟩
              rcases hd with hd | hd
              · exact hd
              · rw [← hs_def] at hstreak
                omega
            · exact I4 h2 hmem2 hstreak hpos
          · intro b1 hb1
            injection hb1 with hb1
            subst hb1
            obtain ⟨b, hb, _⟩ := I5 habit rfl
            exact ⟨b, hb, Or.inr (by omega)⟩
        · rw [if_neg hlt]
          have hsle : s ≤ bs := by omega
          by_cases hrep : s = bs ∧ habit.id < b0.id
          · rw [if_pos hrep]
            obtain ⟨I1, I2, I3, I4, I5⟩ := ih bs (some habit)
              (by intro h; cases h)
              (by
                intro b1 hb1
                injection hb1 with hb1
                subst hb1
                exact ⟨hb0pos, by omega⟩)
            refine ⟨by omega, I2, ?_, ?_, ?_⟩
            · intro b hb
              obtain ⟨j1, j2, j3⟩ := I3 b hb
              refine ⟨j1, j2, Or.inl ?_⟩
              rcases j3 with j | j
              · exact List.mem_cons_of_mem habit j
              · injection j with j
                rw [← j]
                exact List.mem_cons_self habit rest
            · intro h2 hmem hstreak hpos
              rcases List.mem_cons.mp hmem with hme | hmem2
              · subst hme
                obtain ⟨b, hb, hd⟩ := I5 h2 rfl
                refine ⟨b, hb, ?_⟩
                rw [← hs_def] at hstreak
                rcases hd with hd | hd
                · exact hd
                · omega
              · exact I4 h2 hmem2 hstreak hpos
            · intro b1 hb1
              injection hb1 with hb1
              subst hb1
              obtain ⟨b, hb, hd⟩ := I5 habit rfl
              refine ⟨b, hb, ?_⟩
              rcases hd with hd | hd
              · exact Or.inl (by omega)
              · exact Or.inr hd
          · rw [if_neg hrep]
            obtain ⟨I1, I2, I3, I4, I5⟩ := ih bs (some b0)
              (by intro h; cases h)
              (by
                intro b1 hb1
                injection hb1 with hb1
                subst hb1
                exact ⟨hb0pos, hb0streak⟩)
            refine ⟨by omega, I2, ?_, ?_, ?_⟩
            · intro b hb
              obtain ⟨j1, j2, j3⟩ := I3 b hb
              rcases j3 with j | j
              · exact ⟨j1, j2, Or.inl (List.mem_cons_of_mem habit j)⟩
              · exact ⟨j1, j2, Or.inr j⟩
            · intro h2 hmem hstreak hpos
              rcases List.mem_cons.mp hmem with hme | hmem2
              · subst hme
                rw [← hs_def] at hstreak
                have hids : b0.id ≤ h2.id := by
                  rcases Decidable.not_and_iff_or_not.mp hrep with hr | hr
                  · omega
                  · omega
                obtain ⟨b, hb, hd⟩ := I5 b0 rfl
                refine ⟨b, hb, ?_⟩
                rcases hd with hd | hd
                · omega
                · omega
              · exact I4 h2 hmem2 hstreak hpos
            · intro b1 hb1
              injection hb1 with hb1
              subst hb1
              exact I5 _ rfl

/-- C5: `longest_streak_across_habits` returns the maximum per-habit
longest-run length; when positive, the reported habit attains that length
and has the lowest id among all habits attaining it (so ties break to the
lowest habit id independently of input order), and its id, name and
cadence are reported; when no habit has a positive streak (or none exist)
all descriptive fields are unset and the length is 0. -/
theorem C5_best_across_selection (habits : List HabitDTO)
    (completions : List CompletionDTO) :
    (longest_streak_across_habits habits completions).length
        = (habits.map (fun h => longest_streak_for_habit h completions)).foldr max 0
    ∧ ((longest_streak_across_habits habits completions).length = 0 →
        longest_streak_across_habits habits completions = ⟨0, none, none, none⟩)
    ∧ (0 < (longest_streak_across_habits habits completions).length →
        ∃ h ∈ habits,
          longest_streak_for_habit h completions
              = (longest_streak_across_habits habits completions).length
          ∧ (longest_streak_across_habits habits completions).habit_id = some h.id
          ∧ (longest_streak_across_habits habits completions).habit_name = some h.name
          ∧ (longest_streak_across_habits habits completions).periodicity
              = some h.periodicity
          ∧ ∀ h2 ∈ habits, longest_streak_for_habit h2 completions
                = (longest_streak_across_habits habits completions).length →
              h.id ≤ h2.id) := by
  by_cases hemp : habits.isEmpty = true
  · have hnil : habits = [] := List.isEmpty_iff.mp hemp
    subst hnil
    refine ⟨by simp [longest_streak_across_habits], ?_, ?_⟩
    · intro _
      simp [longest_streak_across_habits]
    · intro hpos
      simp [longest_streak_across_habits] at hpos
  · obtain ⟨S1, S2, S3, S4, S5⟩ := bestAcrossLoop_spec completions habits 0 none
      (fun _ => rfl) (by intro b h; cases h)
    rcases hloop : bestAcrossLoop completions habits 0 none with ⟨bs2, bh2⟩
    rw [hloop] at S1 S2 S3 S4
    rcases bh2 with _ | b
    · have hbs0 : bs2 = 0 := S2 rfl
      have hres : longest_streak_across_habits habits completions
          = ⟨0, none, none, none⟩ := by
        simp [longest_streak_across_habits, hemp, hloop]
      refine ⟨?_, fun _ => hres, ?_⟩
      · rw [hres]
        dsimp only at S1 ⊢
        omega
      · intro hpos
        rw [hres] at hpos
        simp at hpos
    · obtain ⟨hpos2, hstreakb, hmemb⟩ := S3 b rfl
      simp only at hpos2 hstreakb S1
      have hbmem : b ∈ habits := by
        rcases hmemb with h | h
        · exact h
        · cases h
      have hres : longest_streak_across_habits habits completions
          = ⟨bs2, some b.id, some b.name, some b.periodicity⟩ := by
        have hne : ¬ bs2 = 0 := by omega
        simp [longest_streak_across_habits, hemp, hloop, hne]
      refine ⟨?_, ?_, ?_⟩
      · rw [hres]
        dsimp only
        omega
      · intro h0
        rw [hres] at h0
        dsimp only at h0
        omega
      · intro _
        refine ⟨b, hbmem, ?_, ?_, ?_, ?_, ?_⟩
        · rw [hres]
          exact hstreakb
        · rw [hres]
        · rw [hres]
        · rw [hres]
        · intro h2 hm2 hst2
          rw [hres] at hst2
          simp only at hst2
          obtain ⟨bb, hbb, hle⟩ := S4 h2 hm2 hst2 hpos2
          simp only at hbb
          injection hbb with hbb
          rw [hbb]
          exact hle

/-- Fixture habits for the C5 witness: a tie at streak 2, lower id 2
listed second. -/
def habitsC5 : List HabitDTO :=
  [⟨5, "yoga", .DAILY, 0, true⟩, ⟨2, "run", .DAILY, 0, true⟩]

/-- Fixture completions for the C5 witness. -/
def compsC5 : List CompletionDTO :=
  [⟨2, 0, "2025-01-01"⟩, ⟨2, 0, "2025-01-02"⟩,
   ⟨5, 0, "2025-03-01"⟩, ⟨5, 0, "2025-03-02"⟩]

/-- C5 witness: with two habits tied at streak 2, the result reports the
habit with the lower id (2) whatever its position in the list. -/
theorem C5_best_across_selection_witness :
    ∃ h ∈ habitsC5,
      longest_streak_for_habit h compsC5
          = (longest_streak_across_habits habitsC5 compsC5).length
      ∧ (longest_streak_across_habits habitsC5 compsC5).habit_id = some h.id
      ∧ (longest_streak_across_habits habitsC5 compsC5).habit_name = some h.name
      ∧ (longest_streak_across_habits habitsC5 compsC5).periodicity
          = some h.periodicity
      ∧ ∀ h2 ∈ habitsC5, longest_streak_for_habit h2 compsC5
            = (longest_streak_across_habits habitsC5 compsC5).length →
          h.id ≤ h2.id :=
  (C5_best_across_selection habitsC5 compsC5).2.2 (by decide)

/-! ## C7: the leveling arithmetic -/

theorem log2fuel_bounds : ∀ fuel n, 1 ≤ n → n ≤ fuel →
    2 ^ log2fuel fuel n ≤ n ∧ n < 2 ^ (log2fuel fuel n + 1) := by
  intro fuel
  induction fuel with
  | zero => intro n h1 h2; omega
  | succ f ih =>
      intro n h1 h2
      by_cases h2n : 2 ≤ n
      · have hrec := ih (n / 2) (by omega) (by omega)
        have hpow : 2 ^ (log2fuel f (n / 2) + 1) = 2 * 2 ^ log2fuel f (n / 2) := by
          ring
        have hpow2 : 2 ^ (log2fuel f (n / 2) + 1 + 1)
            = 2 * 2 ^ (log2fuel f (n / 2) + 1) := by
          ring
        simp only [log2fuel, if_pos h2n]
        constructor
        · rw [hpow]
          omega
        · rw [hpow2, hpow]
          omega
      · simp only [log2fuel, if_neg h2n]
        omega

theorem floorLog2_bounds (n : ℕ) (h : 1 ≤ n) :
    2 ^ floorLog2 n ≤ n ∧ n < 2 ^ (floorLog2 n + 1) :=
  log2fuel_bounds n n h le_rfl

theorem rneDiv10_close (a : ℕ) :
    2 * a ≤ 2 * (10 * rneDiv a 10) + 10
    ∧ 2 * (10 * rneDiv a 10) ≤ 2 * a + 10 := by
  simp only [rneDiv]
  split_ifs <;> omega

theorem rneDiv10_exact (k : ℕ) : rneDiv (10 * k) 10 = k := by
  simp only [rneDiv]
  split_ifs <;> omega

theorem floatFloorDiv_eq_div10 (x : ℕ) (hb : x ≤ 2 ^ 53) :
    floatFloorDiv x 10 = x / 10 := by
  by_cases hx0 : x = 0
  · subst hx0
    rfl
  by_cases h10 : 10 ≤ x
  · have hm1 : 1 ≤ x / 10 := by omega
    obtain ⟨helow, hehigh⟩ := floorLog2_bounds (x / 10) hm1
    set e := floorLog2 (x / 10) with he
    have he50 : e < 50 := by
      have h50 : 2 ^ e < 2 ^ 50 := by
        calc 2 ^ e ≤ x / 10 := helow
        _ < 2 ^ 50 := by omega
      exact (Nat.pow_lt_pow_iff_right (by omega)).mp h50
    have he52 : e ≤ 52 := by omega
    have hres : floatFloorDiv x 10 = rneDiv (x * 2 ^ (52 - e)) 10 / 2 ^ (52 - e) := by
      simp only [floatFloorDiv, if_neg hx0, if_pos h10, ← he, if_pos he52]
    rw [hres]
    set S := 2 ^ (52 - e) with hS
    have hS8 : 8 ≤ S := by
      have : (2 : ℕ) ^ 3 ≤ 2 ^ (52 - e) := Nat.pow_le_pow_right (by omega) (by omega)
      simpa [hS] using this
    set k := x / 10 with hk
    set r := x % 10 with hr
    have hkr : 10 * k + r = x := Nat.div_add_mod x 10
    have hrlt : r < 10 := Nat.mod_lt x (by omega)
    by_cases hr0 : r = 0
    · have hxS : x * S = 10 * (k * S) := by
        rw [← hkr, hr0]
        ring
      rw [hxS, rneDiv10_exact]
      exact Nat.mul_div_cancel k (by omega)
    · set m := rneDiv (x * S) 10 with hm
      obtain ⟨hc1, hc2⟩ := rneDiv10_close (x * S)
      rw [← hm] at hc1 hc2
      have hA : x * S = 10 * (k * S) + r * S := by
        rw [← hkr]
        ring
      have hRlow : S ≤ r * S := Nat.le_mul_of_pos_left S (by omega)
      have hRhigh : r * S ≤ 9 * S := Nat.mul_le_mul_right S (by omega)
      have hlo : k * S ≤ m := by omega
      have hhi : m < (k + 1) * S := by
        have hexp : (k + 1) * S = k * S + S := by ring
        omega
      exact Nat.div_eq_of_lt_le hlo hhi
  · have h19 : 1 ≤ x ∧ x ≤ 9 := by omega
    interval_cases x <;> decide

/-- C7 (amended): for every total_xp up to 2^53 — the engine's reachable
range; `compute_level` uses Python float division, which rounds the exact
quotient and can diverge from exact integer arithmetic above that bound —
`compute_level` equals `1 + floor(total_xp / 10)` in exact integer
arithmetic, and `compute_level_progress` returns
`(level, total_xp mod 10, 10 - total_xp mod 10)` with `xp_into_level` in
`[0, 9]` and `xp_to_next_level` in `[1, 10]`. -/
theorem C7_level_progress (total_xp : ℕ) (hb : total_xp ≤ 2 ^ 53) :
    compute_level total_xp = 1 + (total_xp / 10 : ℕ)
    ∧ compute_level_progress total_xp
        = ((1 + (total_xp / 10 : ℕ) : ℤ), total_xp % 10, 10 - total_xp % 10)
    ∧ total_xp % 10 ≤ 9
    ∧ 1 ≤ 10 - total_xp % 10 ∧ 10 - total_xp % 10 ≤ 10 := by
  have key := floatFloorDiv_eq_div10 total_xp hb
  have hmod : total_xp % 10 ≤ 9 := by omega
  refine ⟨by rw [compute_level, key], ?_, hmod, by omega, by omega⟩
  simp only [compute_level_progress, compute_level, key]

/-- C7 witness: the amended statement at total_xp = 15 gives
`level_progress(15) = (2, 5, 5)`. -/
theorem C7_level_progress_witness :
    compute_level_progress 15 = (2, 5, 5)
    ∧ 15 % 10 ≤ 9 ∧ 1 ≤ 10 - 15 % 10 := by
  have h := C7_level_progress 15 (by norm_num)
  refine ⟨?_, h.2.2.1, h.2.2.2.1⟩
  rw [h.2.1]
  norm_num

/-- C7 counterexample: at total_xp = 10^17 - 1 the implementation
(float division, then floor) yields level 10^16 + 1 whereas exact integer
arithmetic `1 + floor(total_xp / 10)` yields 10^16, refuting the claim
for every non-negative integer. -/
theorem C7_counterexample :
    compute_level (10 ^ 17 - 1) ≠ 1 + ((10 ^ 17 - 1 : ℕ) / 10 : ℕ)
    ∧ compute_level (10 ^ 17 - 1) = 10 ^ 16 + 1
    ∧ (1 + ((10 ^ 17 - 1 : ℕ) / 10 : ℕ) : ℤ) = 10 ^ 16 := by
  refine ⟨by decide, by decide, by decide⟩

end HabitTracker
